import Mathlib

/-!
Verification of the shoelace widget core: the multi-handle range slider
(multi-range.component.ts), the tree selection engine (tree.ts) and the
pointer-drag utility. JavaScript numbers are modelled as rationals, and
Math.round as the floor of x + 1/2 (round half up), which is its behaviour
on all inputs, negative halves included.
-/

namespace Shoelace

namespace MultiRange

/-- Math.round: rounds to the nearest integer, half-up. -/
def jsRound (x : ℚ) : ℤ := ⌊x + 1/2⌋

/-- The reactive numeric properties min, max, step of SlMultiRange. -/
structure Range where
  min : ℚ
  max : ℚ
  step : ℚ
  deriving DecidableEq, Repr

/-- The first correction statement of willUpdate: swap min and max when
inverted. -/
def swapRange (r : Range) : Range :=
  if r.min > r.max then Range.mk r.max r.min r.step else r

/-- The second correction statement of willUpdate: clamp step to max - min
when too large. -/
def clampStep (r : Range) : Range :=
  if r.step > r.max - r.min then Range.mk r.min r.max (r.max - r.min) else r

/-- The third correction statement of willUpdate: reset step to 1 when
non-positive. -/
def resetStep (r : Range) : Range :=
  if r.step ≤ 0 then Range.mk r.min r.max 1 else r

/-- The range-correction steps at the top of willUpdate, in source order:
swap, clamp step, reset step. -/
def correctRange (r : Range) : Range := resetStep (clampStep (swapRange r))

/-- The per-value normalization in willUpdate: clamp below min and above max,
otherwise snap to the step grid from min, re-clamping when snapping overshoots
max. -/
def normalizeOne (r : Range) (v : ℚ) : ℚ :=
  if v ≤ r.min then r.min
  else if v ≥ r.max then r.max
  else if r.min + r.step * ((jsRound ((v - r.min) / r.step) : ℤ) : ℚ) > r.max then r.max
  else r.min + r.step * ((jsRound ((v - r.min) / r.step) : ℤ) : ℚ)

/-- Array.prototype.sort with the numericSort comparator: ascending numeric
sort. -/
def sortAsc (l : List ℚ) : List ℚ := l.insertionSort (· ≤ ·)

/-- The arraysDiffer helper: true when lengths differ or some position holds
different values. -/
def arraysDiffer (a b : List ℚ) : Bool :=
  if a.length ≠ b.length then true
  else (a.zip b).any fun p => decide (p.1 ≠ p.2)

/-- The value-adjustment pass of willUpdate: each value normalized, the result
sorted ascending, and the stored value replaced only when it differs from the
adjusted sequence. -/
def willUpdateValue (r : Range) (value : List ℚ) : List ℚ :=
  if arraysDiffer value (sortAsc (value.map (normalizeOne r))) then
    sortAsc (value.map (normalizeOne r))
  else value

/-- getNormalizedValueFromClientX: maps an absolute clientX to a fraction of
the usable track length (track width minus handle width), clamped to [0, 1],
returning 0 when the usable length is non-positive. -/
def getNormalizedValueFromClientX (boundsLeft boundsWidth handleWidth x : ℚ) : ℚ :=
  if boundsWidth - handleWidth ≤ 0 then 0
  else if x - (boundsLeft + handleWidth / 2) ≤ 0 then 0
  else if x - (boundsLeft + handleWidth / 2) ≥ boundsWidth - handleWidth then 1
  else (x - (boundsLeft + handleWidth / 2)) / (boundsWidth - handleWidth)

/-- The value computed for the dragged handle in onDragHandle:
min + step * round(pos / (step / (max - min))). -/
def dragValue (r : Range) (pos : ℚ) : ℚ :=
  r.min + r.step * ((jsRound (pos / (r.step / (r.max - r.min))) : ℤ) : ℚ)

/-- The stored value sequence written by onDragHandle: the dragged slot is
replaced and the whole sequence re-sorted. -/
def onDragValues (r : Range) (sliderValues : List ℚ) (i : ℕ) (pos : ℚ) : List ℚ :=
  sortAsc (sliderValues.set i (dragValue r pos))

/-- The keys handled by onKeyPress, with the arrow synonyms collapsed. -/
inductive SliderKey where
  | arrowUp
  | arrowDown
  | pageUp
  | pageDown
  | home
  | endKey
  deriving DecidableEq, Repr

/-- The new slot value computed by the switch in onKeyPress. -/
def keyNewValue (r : Range) (v : ℚ) : SliderKey → ℚ
  | .arrowUp => min (v + r.step) r.max
  | .arrowDown => max (v - r.step) r.min
  | .pageUp => min (v + 10 * r.step) r.max
  | .pageDown => max (v - 10 * r.step) r.min
  | .home => r.min
  | .endKey => r.max

/-- The value sequence written by onKeyPress: none when the slot id is unknown
or the value did not change (no mutation happens), otherwise the updated
sequence re-sorted. -/
def onKeyPressValue (r : Range) (sliderValues : List ℚ) (i : ℕ) (k : SliderKey) :
    Option (List ℚ) :=
  match sliderValues[i]? with
  | none => none
  | some v =>
    let v2 := keyNewValue r v k
    if v2 = v then none else some (sortAsc (sliderValues.set i v2))

/-- The computed style of the active track segment. -/
structure TrackStyle where
  visible : Bool
  left : ℚ
  width : ℚ
  deriving DecidableEq, Repr

/-- updateActiveTrack: hidden with zero extent when min equals max or fewer
than two values exist, otherwise spanning from the first to the last value as
percentages of the range. -/
def updateActiveTrack (r : Range) (value : List ℚ) : TrackStyle :=
  if r.min = r.max ∨ value.length < 2 then TrackStyle.mk false 0 0
  else
    let start := 100 * (value.headI - r.min) / (r.max - r.min)
    let span := 100 * (value.getLastD 0 - value.headI) / (r.max - r.min)
    TrackStyle.mk true start span

end MultiRange

/-! Data model of the tree selection engine. The host tree is a rose tree of
items; TreeList is the (isomorphic) list of child items, kept as a mutual
inductive so that every operation is structurally recursive. An item in the
live collection is addressed by its path of child indices from the root. -/

/-- The attributes of one SlTreeItem that the tree engine reads and writes. -/
structure ItemState where
  selected : Bool := false
  indeterminate : Bool := false
  disabled : Bool := false
  expanded : Bool := false
  loading : Bool := false
  lazy : Bool := false
  deriving DecidableEq, Repr

mutual
inductive TreeItem where
  | node : ItemState → TreeList → TreeItem
inductive TreeList where
  | nil : TreeList
  | cons : TreeItem → TreeList → TreeList
end

def TreeItem.state : TreeItem → ItemState
  | .node s _ => s

def TreeItem.childList : TreeItem → TreeList
  | .node _ cs => cs

/-- The states of the items of a child list, in order. -/
def TreeList.states : TreeList → List ItemState
  | .nil => []
  | .cons c rest => c.state :: rest.states

def TreeList.getIdx : TreeList → ℕ → Option TreeItem
  | .nil, _ => none
  | .cons c _, 0 => some c
  | .cons _ rest, n+1 => rest.getIdx n

def TreeList.modifyIdx : TreeList → ℕ → (TreeItem → TreeItem) → TreeList
  | .nil, _, _ => .nil
  | .cons c rest, 0, f => .cons (f c) rest
  | .cons c rest, n+1, f => .cons c (rest.modifyIdx n f)

def TreeList.isNilB : TreeList → Bool
  | .nil => true
  | .cons _ _ => false

namespace Tree

/-- The item of the tree addressed by a path of child indices. -/
def getNode : TreeItem → List ℕ → Option TreeItem
  | t, [] => some t
  | .node _ cs, i :: rest =>
    match cs.getIdx i with
    | some c => getNode c rest
    | none => none

/-- Applies a function to the item addressed by a path, leaving the rest of
the tree unchanged. -/
def modifyAt : TreeItem → List ℕ → (TreeItem → TreeItem) → TreeItem
  | t, [], f => f t
  | .node s cs, i :: rest, f => .node s (cs.modifyIdx i fun c => modifyAt c rest f)

/-- Whether every state in the list is selected (Array.prototype.every over
the children returned by getChildrenItems). -/
def allChecked (children : List ItemState) : Bool :=
  children.all fun c => c.selected

/-- Whether every state in the list is unselected and not indeterminate. -/
def allUnchecked (children : List ItemState) : Bool :=
  children.all fun c => !c.selected && !c.indeterminate

/-- Modelled from the spec: getChildrenItems of SlTreeItem (tree-item.ts is
not among the sources) with includeDisabled false yields the non-disabled
child items; the engine only reads their states, so the model keeps the
filtered child states. -/
def nonDisabled (childSts : List ItemState) : List ItemState :=
  childSts.filter fun c => !c.disabled

/-- The flag recomputation syncAncestors performs on one ancestor: selected
iff every non-disabled child is selected, indeterminate iff the non-disabled
children are neither all checked nor all unchecked. -/
def recomputeStates (s : ItemState) (childSts : List ItemState) : ItemState :=
  { s with
    selected := allChecked (nonDisabled childSts),
    indeterminate := !allChecked (nonDisabled childSts) && !allUnchecked (nonDisabled childSts) }

/-- The syncAncestors walk of syncCheckboxes, phrased top-down along the path
to the changed item: every proper ancestor of the addressed item has its flags
recomputed from its (already reconciled) children, deepest ancestor first. -/
def syncAncestors : TreeItem → List ℕ → TreeItem
  | t, [] => t
  | .node s cs, i :: rest =>
    TreeItem.node
      (recomputeStates s ((cs.modifyIdx i fun c => syncAncestors c rest).states))
      (cs.modifyIdx i fun c => syncAncestors c rest)

mutual
def syncDescChildren : Bool → TreeList → TreeList
  | _, .nil => .nil
  | parentSel, .cons (TreeItem.node s cs) rest =>
    TreeList.cons
      (TreeItem.node { s with selected := !s.disabled && parentSel }
        (syncDescChildren (!s.disabled && parentSel) cs))
      (syncDescChildren parentSel rest)
end

/-- The syncDescendants walk of syncCheckboxes: every child has selected
overwritten with the parent value (false when the child is disabled), and the
walk recurses with the child value just written. -/
def syncDescendants : TreeItem → TreeItem
  | .node s cs => .node s (syncDescChildren s.selected cs)

/-- The first statements of the multiple-mode branch of selectItem: toggle
selected, and force expanded when the item is lazy. -/
def toggleAndExpand : TreeItem → TreeItem
  | .node s cs =>
    TreeItem.node
      { s with
        selected := !s.selected,
        expanded := if s.lazy then true else s.expanded }
      cs

/-- selectItem in multiple selection mode on the item addressed by the path:
toggle (plus lazy expansion), then syncAncestors, then syncDescendants. -/
def selectItemMultiple (root : TreeItem) (path : List ℕ) : TreeItem :=
  modifyAt (syncAncestors (modifyAt root path toggleAndExpand) path) path syncDescendants

/-- The two consistency equations claim C3 states for one non-leaf node, as a
boolean on the node state and its child states. -/
def nodeOKstates (s : ItemState) (childSts : List ItemState) : Bool :=
  (s.selected == allChecked (nonDisabled childSts)) &&
    (s.indeterminate == (!allChecked (nonDisabled childSts) && !allUnchecked (nonDisabled childSts)))

/-- The node-local consistency check of claim C3 for one tree item. -/
def nodeOK (t : TreeItem) : Bool :=
  nodeOKstates t.state t.childList.states

mutual
def checkboxInvariantT : TreeItem → Bool
  | .node s cs => (cs.isNilB || nodeOKstates s cs.states) && checkboxInvariantL cs
def checkboxInvariantL : TreeList → Bool
  | .nil => true
  | .cons c rest => checkboxInvariantT c && checkboxInvariantL rest
end

/-! The state list of a whole tree in document order (preorder). -/

mutual
def flattenT : TreeItem → List ItemState
  | .node s cs => s :: flattenL cs
def flattenL : TreeList → List ItemState
  | .nil => []
  | .cons c rest => flattenT c ++ flattenL rest
end

/-- Forgets the selected flag of a state, for frame statements about writes
that may touch nothing but selected. -/
def eraseSelected (s : ItemState) : ItemState := { s with selected := false }

/-- A parent with selected true whose only child is indeterminate: the
concrete input of the claim C10 witness part. -/
def c10ex : TreeItem :=
  TreeItem.node { selected := true }
    (TreeList.cons (TreeItem.node { indeterminate := true } TreeList.nil) TreeList.nil)

/-- A consistent root (selected false, indeterminate true) whose two leaf
children are one selected, one unselected: the claim C3 counterexample tree. -/
def c3ex : TreeItem :=
  TreeItem.node { indeterminate := true }
    (TreeList.cons (TreeItem.node { selected := true } TreeList.nil)
      (TreeList.cons (TreeItem.node {} TreeList.nil) TreeList.nil))

/-! Single selection mode. The single-mode branch of selectItem touches only
the flat document-order collection treeItems: the chosen member gets selected
set, and the loop over treeItems deselects every other member. The collection
is modelled as the list of item states with the chosen member given by its
index. -/

/-- The assignment selectedItem.selected = true on the member at the given
index. -/
def setSelectedTrue : List ItemState → ℕ → List ItemState
  | [], _ => []
  | s :: rest, 0 => { s with selected := true } :: rest
  | s :: rest, n+1 => s :: setSelectedTrue rest n

/-- The loop of syncTreeItems in single mode: every member other than the one
at the given index has selected set to false. -/
def deselectOthers : ℕ → List ItemState → List ItemState
  | _, [] => []
  | 0, s :: rest => s :: rest.map fun u => { u with selected := false }
  | n+1, s :: rest => { s with selected := false } :: deselectOthers n rest

/-- selectItem in single selection mode (and leaf mode on a leaf): select the
chosen member, then deselect all others. -/
def selectItemSingle (items : List ItemState) (i : ℕ) : List ItemState :=
  deselectOthers i (setSelectedTrue items i)

/-! Keyboard focus. getFocusableItems filters the flat document-order
collection: an item is dropped when it is disabled, or when its closest
ancestor tree item (its parent item, when one exists) is collapsed or
loading. -/

/-- The parent check of the getFocusableItems filter: no parent item, or a
parent that is expanded and not loading. -/
def parentConditionOK : Option ItemState → Bool
  | none => true
  | some p => p.expanded && !p.loading

mutual
def focusableT : Option ItemState → TreeItem → List ItemState
  | parent, .node s cs =>
    (if !s.disabled && parentConditionOK parent then [s] else []) ++ focusableL (some s) cs
def focusableL : Option ItemState → TreeList → List ItemState
  | _, .nil => []
  | parent, .cons c rest => focusableT parent c ++ focusableL parent rest
end

/-- getFocusableItems of the tree whose content is the given root item. -/
def getFocusableItems (root : TreeItem) : List ItemState := focusableT none root

/-! The flat document-order collection paired with the full ancestor chain of
each item, nearest ancestor first. -/

mutual
def itemsAncT : List ItemState → TreeItem → List (ItemState × List ItemState)
  | anc, .node s cs => (s, anc) :: itemsAncL (s :: anc) cs
def itemsAncL : List ItemState → TreeList → List (ItemState × List ItemState)
  | _, .nil => []
  | anc, .cons c rest => itemsAncT anc c ++ itemsAncL anc rest
end

/-- The filter getFocusableItems actually applies, phrased on an item state
and its ancestor chain: only the nearest ancestor is consulted. -/
def codeFocusable (s : ItemState) (anc : List ItemState) : Bool :=
  !s.disabled && parentConditionOK anc.head?

/-- The filter claim C8 describes: an item is dropped when it is disabled or
when any ancestor is collapsed or loading. -/
def claimFocusable (s : ItemState) (anc : List ItemState) : Bool :=
  !s.disabled && anc.all fun a2 => a2.expanded && !a2.loading

/-- A collapsed root over an expanded middle item over a plain leaf: the
claim C8 counterexample tree, whose leaf has a collapsed grandparent but an
expanded, non-loading parent. -/
def c8ex : TreeItem :=
  TreeItem.node { expanded := false }
    (TreeList.cons
      (TreeItem.node { expanded := true }
        (TreeList.cons (TreeItem.node {} TreeList.nil) TreeList.nil))
      TreeList.nil)

end Tree

/-! The pointer-drag utility (drag.ts): document-level listener registration
and the initial-event report, modelled as the ordered list of externally
visible actions one call performs. -/

namespace DragUtil

/-- The container geometry and page scroll offsets read by the move handler. -/
structure DragEnv where
  boundsLeft : ℚ
  boundsTop : ℚ
  pageXOffset : ℚ
  pageYOffset : ℚ
  deriving DecidableEq, Repr

/-- The page coordinates of one pointer event. -/
structure PointerEventModel where
  pageX : ℚ
  pageY : ℚ
  deriving DecidableEq, Repr

/-- One externally visible action of a drag call: registering one of the two
document listeners, or reporting a container-relative position to onMove. -/
inductive DragAction where
  | addMoveListener
  | addUpListener
  | reportMove : ℚ → ℚ → DragAction
  deriving DecidableEq, Repr

/-- The position the move handler reports: page coordinates minus container
origin and page scroll offset. -/
def movePosition (env : DragEnv) (e : PointerEventModel) : ℚ × ℚ :=
  (e.pageX - (env.boundsLeft + env.pageXOffset),
    e.pageY - (env.boundsTop + env.pageYOffset))

/-- The drag function: it registers the pointermove and pointerup listeners,
then, when an initial event was supplied, immediately reports its position. -/
def drag (env : DragEnv) (initialEvent : Option PointerEventModel) : List DragAction :=
  [DragAction.addMoveListener, DragAction.addUpListener] ++
    (match initialEvent with
     | some e => [DragAction.reportMove (movePosition env e).1 (movePosition env e).2]
     | none => [])

def isReport : DragAction → Bool
  | .reportMove _ _ => true
  | _ => false

def isAttach : DragAction → Bool
  | .addMoveListener => true
  | .addUpListener => true
  | _ => false

/-- Whether some listener registration happens strictly before some onMove
report in an action trace. -/
def attachThenReport : List DragAction → Bool
  | [] => false
  | a :: rest => (isAttach a && rest.any isReport) || attachThenReport rest

end DragUtil

namespace MultiRange

/-! Basic lemmas about the corrected range. -/

theorem swapRange_min_le_max (r : Range) : (swapRange r).min ≤ (swapRange r).max := by
  unfold swapRange
  split_ifs with h
  · exact le_of_lt h
  · exact le_of_not_lt h

theorem clampStep_min (r : Range) : (clampStep r).min = r.min := by
  unfold clampStep; split_ifs <;> rfl

theorem clampStep_max (r : Range) : (clampStep r).max = r.max := by
  unfold clampStep; split_ifs <;> rfl

theorem resetStep_min (r : Range) : (resetStep r).min = r.min := by
  unfold resetStep; split_ifs <;> rfl

theorem resetStep_max (r : Range) : (resetStep r).max = r.max := by
  unfold resetStep; split_ifs <;> rfl

theorem resetStep_step_pos (r : Range) : 0 < (resetStep r).step := by
  unfold resetStep
  split_ifs with h
  · norm_num
  · simpa using lt_of_not_le h

theorem correctRange_min_le_max (r : Range) :
    (correctRange r).min ≤ (correctRange r).max := by
  unfold correctRange
  rw [resetStep_min, resetStep_max, clampStep_min, clampStep_max]
  exact swapRange_min_le_max r

theorem correctRange_step_pos (r : Range) : 0 < (correctRange r).step :=
  resetStep_step_pos _

theorem arraysDiffer_eq_false {a b : List ℚ} (h : arraysDiffer a b = false) : a = b := by
  by_cases hlen : a.length = b.length
  · have hany : ((a.zip b).any fun p => decide (p.1 ≠ p.2)) = false := by
      unfold arraysDiffer at h
      simpa [hlen] using h
    apply List.ext_getElem hlen
    intro i h1 h2
    by_contra hne
    rw [List.any_eq_false] at hany
    have hmem : (a[i], b[i]) ∈ a.zip b := by
      rw [List.mem_iff_getElem]
      refine ⟨i, by rw [List.length_zip]; omega, ?_⟩
      rw [List.getElem_zip]
    have h3 := hany _ hmem
    simp at h3
    exact hne h3
  · exfalso
    unfold arraysDiffer at h
    simp [hlen] at h

theorem willUpdateValue_singleton (r : Range) (v : ℚ) :
    willUpdateValue r [v] = [normalizeOne r v] := by
  unfold willUpdateValue
  simp only [List.map_cons, List.map_nil, sortAsc, List.insertionSort, List.orderedInsert]
  split_ifs with h
  · rfl
  · exact arraysDiffer_eq_false (by simpa using h)

theorem swapRange_span_abs (r : Range) :
    (swapRange r).max - (swapRange r).min = |r.max - r.min| := by
  unfold swapRange
  split_ifs with h
  · rw [abs_of_neg (by linarith : r.max - r.min < 0)]
    ring
  · rw [abs_of_nonneg (by linarith [le_of_not_lt h] : (0:ℚ) ≤ r.max - r.min)]

theorem correctRange_min_eq (r : Range) : (correctRange r).min = (swapRange r).min := by
  rw [correctRange, resetStep_min, clampStep_min]

theorem correctRange_max_eq (r : Range) : (correctRange r).max = (swapRange r).max := by
  rw [correctRange, resetStep_max, clampStep_max]

theorem correctRange_step_cases (r : Range) :
    (correctRange r).step ≤ (swapRange r).max - (swapRange r).min ∨
      ((correctRange r).step = 1 ∧
        ((swapRange r).max - (swapRange r).min ≤ 0 ∨ r.step ≤ 0)) := by
  have hstep : (swapRange r).step = r.step := by
    unfold swapRange; split_ifs <;> rfl
  rw [correctRange]
  unfold clampStep resetStep
  split_ifs with h1 h2 h3 <;> simp_all

theorem correctRange_fixed {r : Range} (hm : r.min ≤ r.max) (h0 : 0 < r.step)
    (hle : r.step ≤ r.max - r.min) : correctRange r = r := by
  have h1 : swapRange r = r := by
    unfold swapRange
    split_ifs with h
    · exact absurd h (not_lt.mpr hm)
    · rfl
  have h2 : clampStep r = r := by
    unfold clampStep
    split_ifs with h
    · exact absurd h (not_lt.mpr hle)
    · rfl
  have h3 : resetStep r = r := by
    unfold resetStep
    split_ifs with h
    · exact absurd h (not_le.mpr h0)
    · rfl
  rw [correctRange, h1, h2, h3]

theorem correctRange_degenerate (m s : ℚ) :
    correctRange (Range.mk m m s) = Range.mk m m 1 := by
  rw [correctRange]
  unfold swapRange clampStep resetStep
  split_ifs <;> simp_all

theorem correctRange_step_one_of_degenerate {r : Range}
    (h : (correctRange r).min = (correctRange r).max) : (correctRange r).step = 1 := by
  rcases correctRange_step_cases r with hc | hc
  · exfalso
    rw [correctRange_min_eq, correctRange_max_eq] at h
    rw [← h] at hc
    simp at hc
    exact absurd (lt_of_lt_of_le (correctRange_step_pos r) hc) (by norm_num)
  · exact hc.1

/-- Claim C1 counterexample: with the already-corrected configuration
min = 0, max = 10, step = 3, the input value 11 normalizes to 10, but
10 - min = 10 is not an integer multiple of step = 3. -/
theorem claim_C1_counterexample :
    (willUpdateValue (correctRange (Range.mk 0 10 3)) [11]).headI = 10 ∧
      ¬ ∃ k : ℤ,
        (willUpdateValue (correctRange (Range.mk 0 10 3)) [11]).headI
            - (correctRange (Range.mk 0 10 3)).min
          = k * (correctRange (Range.mk 0 10 3)).step := by
  have hcr : correctRange (Range.mk 0 10 3) = Range.mk 0 10 3 := by
    norm_num [correctRange, swapRange, clampStep, resetStep]
  have hval : willUpdateValue (Range.mk 0 10 3) [11] = [10] := by
    rw [willUpdateValue_singleton]
    norm_num [normalizeOne]
  rw [hcr, hval]
  refine ⟨rfl, ?_⟩
  rintro ⟨k, hk⟩
  simp only [List.headI] at hk
  have hk2 : (10:ℚ) = k * 3 := by linarith
  have hk3 : (10:ℤ) = k * 3 := by exact_mod_cast hk2
  omega

/-- Claim C1, amended: for every corrected configuration and input value, the
normalized value lies in the closed interval from min to max, and its distance
from min is an integer multiple of the corrected step unless the value was
clamped to max itself (max need not lie on the step grid). -/
theorem claim_C1_amended (r0 : Range) (v : ℚ) :
    (correctRange r0).min ≤ (willUpdateValue (correctRange r0) [v]).headI ∧
      (willUpdateValue (correctRange r0) [v]).headI ≤ (correctRange r0).max ∧
      ((willUpdateValue (correctRange r0) [v]).headI = (correctRange r0).max ∨
        ∃ k : ℤ,
          (willUpdateValue (correctRange r0) [v]).headI - (correctRange r0).min
            = k * (correctRange r0).step) := by
  have hm := correctRange_min_le_max r0
  have hs := correctRange_step_pos r0
  set r := correctRange r0 with hr
  rw [willUpdateValue_singleton]
  simp only [List.headI]
  unfold normalizeOne
  split_ifs with h1 h2 h3
  · exact ⟨le_refl _, hm, Or.inr ⟨0, by ring⟩⟩
  · exact ⟨hm, le_refl _, Or.inl rfl⟩
  · exact ⟨hm, le_refl _, Or.inl rfl⟩
  · push_neg at h1 h2 h3
    have hx : 0 < (v - r.min) / r.step := div_pos (by linarith) hs
    have hk : 0 ≤ jsRound ((v - r.min) / r.step) := by
      rw [jsRound]
      exact Int.floor_nonneg.mpr (by linarith)
    refine ⟨?_, h3, Or.inr ⟨jsRound ((v - r.min) / r.step), by ring⟩⟩
    have : (0:ℚ) ≤ r.step * (jsRound ((v - r.min) / r.step) : ℚ) :=
      mul_nonneg hs.le (by exact_mod_cast hk)
    linarith

/-- Claim C4 counterexample: for min = 0, max = 1/2, step = 0, one correction
pass yields step = 1 (reset), but a second pass clamps that step to
max - min = 1/2, so the correction is not idempotent. -/
theorem claim_C4_counterexample :
    correctRange (correctRange (Range.mk 0 (1/2) 0)) ≠ correctRange (Range.mk 0 (1/2) 0) := by
  have h1 : correctRange (Range.mk 0 (1/2) 0) = Range.mk 0 (1/2) 1 := by
    norm_num [correctRange, swapRange, clampStep, resetStep]
  have h2 : correctRange (Range.mk 0 (1/2) 1) = Range.mk 0 (1/2) (1/2) := by
    norm_num [correctRange, swapRange, clampStep, resetStep]
  rw [h1, h2]
  intro h
  rw [Range.mk.injEq] at h
  have := h.2.2
  norm_num at this

/-- Claim C4, amended: the range correction is idempotent for every triple in
which step is positive, or the gap between min and max is at least 1, or min
equals max; it can fail only when a non-positive step is reset to 1 while
0 < |max - min| < 1. -/
theorem claim_C4_amended (r : Range)
    (h : 0 < r.step ∨ 1 ≤ |r.max - r.min| ∨ r.min = r.max) :
    correctRange (correctRange r) = correctRange r := by
  have hm := correctRange_min_le_max r
  have hs := correctRange_step_pos r
  by_cases hdeg : (correctRange r).min = (correctRange r).max
  · have h1 := correctRange_step_one_of_degenerate hdeg
    have hshape : correctRange r = Range.mk (correctRange r).min (correctRange r).min 1 := by
      cases hc : correctRange r
      rw [hc] at hdeg h1
      simp only at hdeg h1
      simp [hdeg, h1]
    rw [hshape, correctRange_degenerate]
  · have hlt : (correctRange r).min < (correctRange r).max := lt_of_le_of_ne hm hdeg
    have hspan : (swapRange r).max - (swapRange r).min
        = (correctRange r).max - (correctRange r).min := by
      rw [correctRange_min_eq, correctRange_max_eq]
    rcases correctRange_step_cases r with hc | hc
    · exact correctRange_fixed hm hs (by linarith [hspan ▸ hc])
    · rcases hc.2 with hz | hz
      · exfalso
        rw [hspan] at hz
        linarith
      · rcases h with h1 | h1 | h1
        · exact absurd hz (not_le.mpr h1)
        · have habs : 1 ≤ (swapRange r).max - (swapRange r).min := by
            rw [swapRange_span_abs]; exact h1
          exact correctRange_fixed hm hs (by rw [hc.1]; linarith [hspan ▸ habs])
        · exfalso
          have : swapRange r = r := by
            unfold swapRange
            split_ifs with hswap
            · exact absurd hswap (by rw [h1]; exact lt_irrefl _)
            · rfl
          rw [correctRange_min_eq, correctRange_max_eq, this, h1] at hlt
          exact lt_irrefl _ hlt

/-- Claim C4 amended witness: the correction is idempotent at
min = 0, max = 10, step = 0. -/
theorem claim_C4_amended_witness :
    correctRange (correctRange (Range.mk 0 10 0)) = correctRange (Range.mk 0 10 0) :=
  claim_C4_amended (Range.mk 0 10 0) (Or.inr (Or.inl (by norm_num)))

theorem getNormalized_mem (bl bw hw x : ℚ) :
    0 ≤ getNormalizedValueFromClientX bl bw hw x ∧
      getNormalizedValueFromClientX bl bw hw x ≤ 1 := by
  unfold getNormalizedValueFromClientX
  split_ifs with h1 h2 h3
  · norm_num
  · norm_num
  · norm_num
  · push_neg at h1 h2 h3
    have hsize : 0 < bw - hw := h1
    constructor
    · exact (div_pos h2 hsize).le
    · rw [div_le_one hsize]
      linarith

theorem dragValue_le_max {r : Range} {pos : ℚ} (hs : 0 < r.step) (K : ℕ)
    (hK : r.max - r.min = K * r.step) (h0 : 0 ≤ pos) (h1 : pos ≤ 1) :
    dragValue r pos ≤ r.max ∧ (pos = 1 → dragValue r pos = r.max) := by
  rcases Nat.eq_zero_or_pos K with hz | hKpos
  · subst hz
    have hmm : r.max = r.min := by
      push_cast at hK
      linarith
    have : dragValue r pos = r.min := by
      unfold dragValue jsRound
      rw [hmm]
      norm_num
    rw [this, hmm]
    exact ⟨le_refl _, fun _ => rfl⟩
  · have hKQ : (0:ℚ) < (K:ℚ) := by exact_mod_cast hKpos
    have hstep_ne : r.step ≠ 0 := ne_of_gt hs
    have hunit : r.step / (r.max - r.min) = 1 / K := by
      rw [hK]
      field_simp
      ring
    have hposK : pos / (r.step / (r.max - r.min)) = pos * K := by
      rw [hunit, div_div_eq_mul_div, div_one]
    have hjle : jsRound (pos * K) ≤ (K:ℤ) := by
      rw [jsRound]
      have hlt1 : (pos * K + 1/2 : ℚ) < ((K + 1 : ℤ) : ℚ) := by
        push_cast
        nlinarith
      exact Int.lt_add_one_iff.mp (Int.floor_lt.mpr hlt1)
    constructor
    · unfold dragValue
      rw [hposK]
      have hmul : r.step * ((jsRound (pos * K) : ℤ) : ℚ) ≤ r.step * (K:ℚ) := by
        apply mul_le_mul_of_nonneg_left _ hs.le
        exact_mod_cast hjle
      have hmax : r.min + r.step * (K:ℚ) = r.max := by linarith [hK]
      nlinarith [hmul]
    · intro hp1
      subst hp1
      have hjeq : jsRound (1 * K) = (K:ℤ) := by
        rw [jsRound, one_mul, add_comm]
        rw [show ((K:ℚ)) = ((K:ℤ):ℚ) by push_cast; ring]
        rw [Int.floor_add_int]
        norm_num
      unfold dragValue
      rw [hposK, one_mul] at *
      rw [hjeq]
      push_cast
      linarith [hK]

/-- Claim C2 counterexample: with min = 0, max = 10, step = 4 and the pointer
fraction clamped to 1 (clientX far past the track), the dragged slot receives
0 + 4 * round(2.5) = 12, which exceeds max = 10 instead of clamping to it. -/
theorem claim_C2_counterexample :
    getNormalizedValueFromClientX 0 100 0 150 = 1 ∧
      dragValue (Range.mk 0 10 4) (getNormalizedValueFromClientX 0 100 0 150) = 12 ∧
      ¬ dragValue (Range.mk 0 10 4) (getNormalizedValueFromClientX 0 100 0 150)
          ≤ (Range.mk 0 10 4).max := by
  have h1 : getNormalizedValueFromClientX 0 100 0 150 = 1 := by
    norm_num [getNormalizedValueFromClientX]
  have h2 : dragValue (Range.mk 0 10 4) 1 = 12 := by
    unfold dragValue jsRound
    norm_num
  refine ⟨h1, ?_, ?_⟩
  · rw [h1, h2]
  · rw [h1, h2]
    norm_num

/-- Claim C2, amended: when the span max - min is an integer multiple of the
positive step (in particular in every configuration whose max lies on the
step grid), the value computed during a drag never exceeds max, and a pointer
fraction clamped to 1 yields exactly max. Without that divisibility the
computed value can overshoot max, as the counterexample shows. -/
theorem claim_C2_amended (mn mx st bl bw hw cx : ℚ) (hs : 0 < st) (K : ℕ)
    (hK : mx - mn = K * st) :
    dragValue (Range.mk mn mx st) (getNormalizedValueFromClientX bl bw hw cx) ≤ mx ∧
      (getNormalizedValueFromClientX bl bw hw cx = 1 →
        dragValue (Range.mk mn mx st) (getNormalizedValueFromClientX bl bw hw cx) = mx) := by
  obtain ⟨h0, h1⟩ := getNormalized_mem bl bw hw cx
  exact dragValue_le_max hs K hK h0 h1

/-- Claim C2 amended witness: with min = 0, max = 10, step = 2 and clientX far
past the track, the dragged value is at most 10, and exactly 10 at fraction 1. -/
theorem claim_C2_amended_witness :
    dragValue (Range.mk 0 10 2) (getNormalizedValueFromClientX 0 100 0 200) ≤ 10 ∧
      (getNormalizedValueFromClientX 0 100 0 200 = 1 →
        dragValue (Range.mk 0 10 2) (getNormalizedValueFromClientX 0 100 0 200) = 10) :=
  claim_C2_amended 0 10 2 0 100 0 200 (by norm_num) 5 (by norm_num)

theorem sortAsc_sorted (l : List ℚ) : List.Sorted (· ≤ ·) (sortAsc l) :=
  List.sorted_insertionSort _ l

/-- Claim C5: the stored value sequence is sorted ascending after each of the
three mutations: the willUpdate normalization pass, a drag move, and a
keyboard step (which mutates only when it reports a new sequence). -/
theorem claim_C5 :
    (∀ r value, List.Sorted (· ≤ ·) (willUpdateValue r value)) ∧
      (∀ r sliderValues i pos, List.Sorted (· ≤ ·) (onDragValues r sliderValues i pos)) ∧
      (∀ r sliderValues i k l, onKeyPressValue r sliderValues i k = some l →
        List.Sorted (· ≤ ·) l) := by
  refine ⟨?_, ?_, ?_⟩
  · intro r value
    unfold willUpdateValue
    split_ifs with h
    · exact sortAsc_sorted _
    · rw [@arraysDiffer_eq_false value (sortAsc (value.map (normalizeOne r))) (by simpa using h)]
      exact sortAsc_sorted _
  · intro r sliderValues i pos
    exact sortAsc_sorted _
  · intro r sliderValues i k l h
    unfold onKeyPressValue at h
    cases hv : sliderValues[i]? with
    | none =>
        rw [hv] at h
        simp at h
    | some v =>
        rw [hv] at h
        simp only at h
        split_ifs at h with heq
        all_goals first
        | exact Option.noConfusion h
        | (injection h with h2
           rw [← h2]
           exact sortAsc_sorted _)

/-- Claim C5 witness: a concrete keyboard step (ArrowUp from the first slot of
the sequence 2, 1 with step 1) reports a sorted sequence. -/
theorem claim_C5_witness : List.Sorted (· ≤ ·) (sortAsc [(3:ℚ), 1]) :=
  claim_C5.2.2 (Range.mk 0 10 1) [2, 1] 0 SliderKey.arrowUp (sortAsc [(3:ℚ), 1])
    (by norm_num [onKeyPressValue, keyNewValue, min_def])

theorem getLastD_mem_cons : ∀ (l : List ℚ) (a : ℚ), (a :: l).getLastD 0 ∈ a :: l
  | [], a => by simp [List.getLastD]
  | b :: l, a => by
      have h := getLastD_mem_cons l b
      rw [List.getLastD_cons, List.getLastD_cons]
      rw [List.getLastD_cons] at h
      exact List.mem_cons_of_mem a h

/-- Claim C6 counterexample: with min = 0, max = 10 and the (out-of-range)
value sequence 0, 12 - reachable because a drag move can store a value above
max - the active track spans left + width = 0 + 120 > 100. -/
theorem claim_C6_counterexample :
    100 < (updateActiveTrack (Range.mk 0 10 1) [0, 12]).left
        + (updateActiveTrack (Range.mk 0 10 1) [0, 12]).width := by
  norm_num [updateActiveTrack]

/-- Claim C6, amended: when every value lies between min and max (as after the
normalization pass), the active track satisfies left + width at most 100, it
is hidden exactly when fewer than two values exist or min equals max, and when
visible it spans from the fractional position of the first value to that of
the last value (the lowest and highest, the committed sequence being sorted):
left is 100 (first - min) / (max - min) percent and the right edge
left + width is 100 (last - min) / (max - min) percent. -/
theorem claim_C6_amended (r : Range) (value : List ℚ)
    (hv : ∀ v ∈ value, r.min ≤ v ∧ v ≤ r.max) :
    (updateActiveTrack r value).left + (updateActiveTrack r value).width ≤ 100 ∧
      ((updateActiveTrack r value).visible = false ↔
        (value.length < 2 ∨ r.min = r.max)) ∧
      ((updateActiveTrack r value).visible = true →
        (updateActiveTrack r value).left
            = 100 * (value.headI - r.min) / (r.max - r.min) ∧
          (updateActiveTrack r value).left + (updateActiveTrack r value).width
            = 100 * (value.getLastD 0 - r.min) / (r.max - r.min)) := by
  unfold updateActiveTrack
  split_ifs with h
  · refine ⟨by norm_num, ⟨fun _ => or_comm.mp h, fun _ => rfl⟩, ?_⟩
    intro hvis
    exact absurd hvis (by simp)
  · push_neg at h
    obtain ⟨hne, hlen⟩ := h
    obtain ⟨a, rest, rfl⟩ : ∃ a rest, value = a :: rest := by
      cases value with
      | nil => simp at hlen
      | cons a rest => exact ⟨a, rest, rfl⟩
    have hmem0 : a ∈ a :: rest := List.mem_cons_self a rest
    have hmeml : (a :: rest).getLastD 0 ∈ a :: rest := getLastD_mem_cons rest a
    have ha := hv a hmem0
    have hl := hv _ hmeml
    have hlt : r.min < r.max := lt_of_le_of_ne (by linarith [ha.1, ha.2]) hne
    have hpos : 0 < r.max - r.min := by linarith
    refine ⟨?_, ?_, ?_⟩
    · simp only [List.headI]
      rw [div_add_div_same, div_le_iff₀ hpos]
      linarith [hl.2]
    · simp only [iff_false, Bool.true_eq_false, false_iff]
      push_neg
      exact ⟨hlen, hne⟩
    · intro _
      refine ⟨rfl, ?_⟩
      simp only [List.headI]
      rw [div_add_div_same]
      congr 1
      ring

/-- Claim C6 amended witness: with min = 0, max = 10 and values 2, 8 the
active track satisfies the span bound, is visible, and runs from the first to
the last value as percentages. -/
theorem claim_C6_amended_witness :
    (updateActiveTrack (Range.mk 0 10 1) [2, 8]).left
        + (updateActiveTrack (Range.mk 0 10 1) [2, 8]).width ≤ 100 ∧
      ((updateActiveTrack (Range.mk 0 10 1) [2, 8]).visible = false ↔
        (([(2:ℚ), 8]).length < 2 ∨ (Range.mk 0 10 1).min = (Range.mk 0 10 1).max)) ∧
      ((updateActiveTrack (Range.mk 0 10 1) [2, 8]).visible = true →
        (updateActiveTrack (Range.mk 0 10 1) [2, 8]).left
            = 100 * (([(2:ℚ), 8]).headI - (Range.mk 0 10 1).min)
              / ((Range.mk 0 10 1).max - (Range.mk 0 10 1).min) ∧
          (updateActiveTrack (Range.mk 0 10 1) [2, 8]).left
              + (updateActiveTrack (Range.mk 0 10 1) [2, 8]).width
            = 100 * (([(2:ℚ), 8]).getLastD 0 - (Range.mk 0 10 1).min)
              / ((Range.mk 0 10 1).max - (Range.mk 0 10 1).min)) :=
  claim_C6_amended (Range.mk 0 10 1) [2, 8] (by norm_num)

end MultiRange

namespace Tree

/-! Frame lemmas for the descendant walk and the path machinery. -/

theorem syncDescendants_state (t : TreeItem) : (syncDescendants t).state = t.state := by
  cases t with
  | node s cs => rfl

theorem modifyAt_state {f : TreeItem → TreeItem} (hf : ∀ u, (f u).state = u.state) :
    ∀ (t : TreeItem) (p : List ℕ), (modifyAt t p f).state = t.state
  | t, [] => by
      cases t with
      | node s cs => exact hf _
  | .node _ _, _ :: _ => rfl

theorem states_modifyIdx {g : TreeItem → TreeItem} (hg : ∀ c, (g c).state = c.state) :
    ∀ (cs : TreeList) (i : ℕ), (cs.modifyIdx i g).states = cs.states
  | .nil, _ => rfl
  | .cons c rest, 0 => by
      simp only [TreeList.modifyIdx, TreeList.states, hg]
  | .cons c rest, n+1 => by
      simp only [TreeList.modifyIdx, TreeList.states]
      rw [states_modifyIdx hg rest n]

theorem getIdx_modifyIdx (g : TreeItem → TreeItem) :
    ∀ (cs : TreeList) (i : ℕ), (cs.modifyIdx i g).getIdx i = (cs.getIdx i).map g
  | .nil, _ => rfl
  | .cons _ _, 0 => rfl
  | .cons _ rest, n+1 => getIdx_modifyIdx g rest n

theorem nodeOKstates_recompute (s : ItemState) (sts : List ItemState) :
    nodeOKstates (recomputeStates s sts) sts = true := by
  simp [nodeOKstates, recomputeStates]

theorem getNode_modifyAt_anc {f : TreeItem → TreeItem} (hf : ∀ u, (f u).state = u.state) :
    ∀ (p : List ℕ) (t : TreeItem) (j : ℕ) (q : List ℕ) (a : TreeItem),
      getNode (modifyAt t (p ++ j :: q) f) p = some a →
      ∃ b, getNode t p = some b ∧ a.state = b.state ∧
        a.childList.states = b.childList.states
  | [], t, j, q, a => by
      intro ha
      cases t with
      | node s cs =>
          simp only [List.nil_append, modifyAt, getNode, Option.some.injEq] at ha
          refine ⟨TreeItem.node s cs, rfl, ?_, ?_⟩
          · rw [← ha]
            rfl
          · rw [← ha]
            exact states_modifyIdx (fun c => modifyAt_state hf c q) cs j
  | i :: p2, t, j, q, a => by
      intro ha
      cases t with
      | node s cs =>
          simp only [List.cons_append, modifyAt, getNode] at ha
          rw [getIdx_modifyIdx] at ha
          cases hc : cs.getIdx i with
          | none =>
              rw [hc] at ha
              simp at ha
          | some c =>
              rw [hc] at ha
              simp only [Option.map_some', Option.some_bind] at ha
              obtain ⟨b, hb, h1, h2⟩ := getNode_modifyAt_anc hf p2 c j q a ha
              refine ⟨b, ?_, h1, h2⟩
              simp only [getNode]
              rw [hc]
              simpa using hb

theorem getNode_syncAncestors_ok :
    ∀ (p : List ℕ) (t : TreeItem) (j : ℕ) (q : List ℕ) (a : TreeItem),
      getNode (syncAncestors t (p ++ j :: q)) p = some a → nodeOK a = true
  | [], t, j, q, a => by
      intro ha
      cases t with
      | node s cs =>
          simp only [List.nil_append, syncAncestors, getNode, Option.some.injEq] at ha
          rw [← ha]
          exact nodeOKstates_recompute s ((cs.modifyIdx j fun c => syncAncestors c q).states)
  | i :: p2, t, j, q, a => by
      intro ha
      cases t with
      | node s cs =>
          simp only [List.cons_append, syncAncestors, getNode] at ha
          rw [getIdx_modifyIdx] at ha
          cases hc : cs.getIdx i with
          | none =>
              rw [hc] at ha
              simp at ha
          | some c =>
              rw [hc] at ha
              simp only [Option.map_some', Option.some_bind] at ha
              exact getNode_syncAncestors_ok p2 c j q a ha

/-- Claim C3 counterexample: the tree c3ex satisfies the claimed invariant,
but after selectItem on its root (multiple mode) the root has selected true
with all children selected while its stale indeterminate flag is still true,
so the indeterminate equation of the claim fails. -/
theorem claim_C3_counterexample :
    checkboxInvariantT c3ex = true ∧
      checkboxInvariantT (selectItemMultiple c3ex []) = false := by
  decide

/-- Claim C3, amended: after a multiple-mode selectItem, the two consistency
equations hold at every proper ancestor of the changed item (the nodes whose
flags syncAncestors recomputes); the changed item itself and its descendants
keep their previous indeterminate flags. -/
theorem claim_C3_amended (root : TreeItem) (p : List ℕ) (j : ℕ) (q : List ℕ)
    (a : TreeItem)
    (ha : getNode (selectItemMultiple root (p ++ j :: q)) p = some a) :
    nodeOK a = true := by
  unfold selectItemMultiple at ha
  obtain ⟨b, hb, h1, h2⟩ := getNode_modifyAt_anc syncDescendants_state p
    (syncAncestors (modifyAt root (p ++ j :: q) toggleAndExpand) (p ++ j :: q)) j q a ha
  have hok := getNode_syncAncestors_ok p _ j q b hb
  rw [nodeOK] at hok
  rw [nodeOK, h1, h2]
  exact hok

/-- Claim C3 amended witness: selecting the single child of a two-node tree
leaves the root consistent. -/
theorem claim_C3_amended_witness :
    nodeOK (selectItemMultiple
      (TreeItem.node {} (TreeList.cons (TreeItem.node {} TreeList.nil) TreeList.nil))
      [0]) = true :=
  claim_C3_amended
    (TreeItem.node {} (TreeList.cons (TreeItem.node {} TreeList.nil) TreeList.nil))
    [] 0 []
    (selectItemMultiple
      (TreeItem.node {} (TreeList.cons (TreeItem.node {} TreeList.nil) TreeList.nil))
      [0])
    rfl

mutual
theorem syncDesc_frame_T (t : TreeItem) :
    (flattenT (syncDescendants t)).map eraseSelected = (flattenT t).map eraseSelected := by
  cases t with
  | node s cs =>
      simp only [syncDescendants, flattenT, List.map_cons]
      exact congrArg _ (syncDesc_frame_L s.selected cs)

theorem syncDesc_frame_L (b : Bool) (l : TreeList) :
    (flattenL (syncDescChildren b l)).map eraseSelected = (flattenL l).map eraseSelected := by
  cases l with
  | nil => rfl
  | cons c rest =>
      cases c with
      | node s cs =>
          simp only [syncDescChildren, flattenL, flattenT, List.map_append, List.map_cons,
            List.cons_append]
          rw [syncDesc_frame_L (!s.disabled && b) cs, syncDesc_frame_L b rest]
          rfl
end

/-- Claim C10: the descendant walk of syncCheckboxes only overwrites selected
flags: every other attribute of every node, indeterminate included, is left
unchanged, and on the concrete tree c10ex the indeterminate child ends the
walk with selected and indeterminate both true. -/
theorem claim_C10 :
    (∀ t, (flattenT (syncDescendants t)).map eraseSelected
        = (flattenT t).map eraseSelected) ∧
      (flattenT (syncDescendants c10ex)).any (fun s => s.selected && s.indeterminate)
        = true := by
  constructor
  · exact syncDesc_frame_T
  · decide

/-! Single selection mode. -/

theorem selectItemSingle_get :
    ∀ (items : List ItemState) (i j : ℕ) (hj : j < (selectItemSingle items i).length),
      ((selectItemSingle items i).get ⟨j, hj⟩).selected = decide (j = i)
  | [], i, j, hj => absurd hj (by simp [selectItemSingle, setSelectedTrue, deselectOthers])
  | s :: rest, 0, 0, hj => by simp [selectItemSingle, setSelectedTrue, deselectOthers]
  | s :: rest, 0, j+1, hj => by
      simp only [selectItemSingle, setSelectedTrue, deselectOthers] at hj ⊢
      simp only [List.get_eq_getElem, List.getElem_cons_succ, List.getElem_map]
      simp
  | s :: rest, i+1, 0, hj => by
      simp [selectItemSingle, setSelectedTrue, deselectOthers]
  | s :: rest, i+1, j+1, hj => by
      have hj2 : j < (selectItemSingle rest i).length := by
        simpa [selectItemSingle, setSelectedTrue, deselectOthers] using hj
      have ih := selectItemSingle_get rest i j hj2
      simp only [selectItemSingle, setSelectedTrue, deselectOthers] at hj ⊢
      simp only [List.get_eq_getElem, List.getElem_cons_succ]
      simp only [selectItemSingle] at ih
      simp only [List.get_eq_getElem] at ih
      rw [ih]
      simp

theorem selectItemSingle_countP :
    ∀ (items : List ItemState) (i : ℕ), i < items.length →
      (selectItemSingle items i).countP (fun s => s.selected) = 1
  | [], i, hi => absurd hi (by simp)
  | s :: rest, 0, _ => by
      show List.countP _
        ({ s with selected := true } :: rest.map fun u => { u with selected := false }) = 1
      rw [List.countP_cons]
      have hz : (rest.map fun u => { u with selected := false }).countP
          (fun s => s.selected) = 0 := by
        rw [List.countP_eq_zero]
        intro a hmem
        obtain ⟨u, _, rfl⟩ := List.mem_map.mp hmem
        simp
      simp [hz]
  | s :: rest, i+1, hi => by
      show List.countP _ ({ s with selected := false } :: selectItemSingle rest i) = 1
      rw [List.countP_cons]
      have ih := selectItemSingle_countP rest i (Nat.succ_lt_succ_iff.mp (by simpa using hi))
      simp [ih]

/-- Claim C7: in single selection mode, selecting the member at index i of the
document-order collection leaves exactly one member selected, namely the
chosen one; every other member ends deselected. -/
theorem claim_C7 (items : List ItemState) (i : ℕ) (hi : i < items.length) :
    (selectItemSingle items i).countP (fun s => s.selected) = 1 ∧
      ∀ j (hj : j < (selectItemSingle items i).length),
        ((selectItemSingle items i).get ⟨j, hj⟩).selected = decide (j = i) :=
  ⟨selectItemSingle_countP items i hi, fun j hj => selectItemSingle_get items i j hj⟩

/-- Claim C7 witness: selecting index 1 of a two-member collection whose other
member was selected leaves exactly one member selected. -/
theorem claim_C7_witness :
    (selectItemSingle ([{ selected := true }, {}] : List ItemState) 1).countP
      (fun s => s.selected) = 1 :=
  (claim_C7 ([{ selected := true }, {}] : List ItemState) 1 (by decide)).1

/-! Keyboard focus subset. -/

mutual
theorem focusableT_eq (anc : List ItemState) (t : TreeItem) :
    focusableT anc.head? t
      = ((itemsAncT anc t).filter fun e => codeFocusable e.1 e.2).map fun e => e.1 := by
  cases t with
  | node s cs =>
      have hrec := focusableL_eq (s :: anc) cs
      simp only [List.head?_cons] at hrec
      simp only [focusableT, itemsAncT, List.filter_cons]
      rw [show codeFocusable s anc = (!s.disabled && parentConditionOK anc.head?) from rfl]
      by_cases hkeep : (!s.disabled && parentConditionOK anc.head?) = true
      · simp only [hkeep, if_true, List.map_cons, List.singleton_append]
        rw [hrec]
      · simp only [Bool.not_eq_true] at hkeep
        simp only [hkeep, if_false, Bool.false_eq_true, List.nil_append]
        rw [hrec]

theorem focusableL_eq (anc : List ItemState) (cs : TreeList) :
    focusableL anc.head? cs
      = ((itemsAncL anc cs).filter fun e => codeFocusable e.1 e.2).map fun e => e.1 := by
  cases cs with
  | nil => rfl
  | cons c rest =>
      have h1 := focusableT_eq anc c
      have h2 := focusableL_eq anc rest
      simp only [focusableL, itemsAncL, List.filter_append, List.map_append]
      rw [h1, h2]
end

/-- Claim C8 counterexample: in the tree c8ex the leaf has a collapsed
grandparent but an expanded non-loading parent; getFocusableItems keeps it,
while the claimed any-ancestor filter drops it, so the two disagree. -/
theorem claim_C8_counterexample :
    getFocusableItems c8ex
      ≠ ((itemsAncT [] c8ex).filter fun e => claimFocusable e.1 e.2).map fun e => e.1 := by
  decide

/-- Claim C8, amended: getFocusableItems excludes exactly the items that are
disabled or whose closest ancestor tree item is collapsed or loading; deeper
ancestors are not consulted, so an item whose grandparent is collapsed is kept
whenever its parent is expanded and not loading. -/
theorem claim_C8_amended (root : TreeItem) :
    getFocusableItems root
      = ((itemsAncT [] root).filter fun e => codeFocusable e.1 e.2).map fun e => e.1 :=
  focusableT_eq [] root

end Tree

namespace DragUtil

/-- Claim C9 counterexample: a drag call with an initial event registers both
document listeners first and reports the initial position afterwards, so an
attach action precedes the report in the trace. -/
theorem claim_C9_counterexample :
    attachThenReport (drag (DragEnv.mk 0 0 0 0) (some (PointerEventModel.mk 5 7))) = true := by
  decide

/-- Claim C9, amended: when an initial event is supplied, the drag call first
registers the pointermove and pointerup listeners and then immediately, still
within the same call, reports the position computed for that event. -/
theorem claim_C9_amended (env : DragEnv) (e : PointerEventModel) :
    drag env (some e)
      = [DragAction.addMoveListener, DragAction.addUpListener,
          DragAction.reportMove (e.pageX - (env.boundsLeft + env.pageXOffset))
            (e.pageY - (env.boundsTop + env.pageYOffset))] := rfl

end DragUtil

end Shoelace
